import Mathlib

set_option maxHeartbeats 1000000

/-!
Shallow embedding of the adaptive partitioning core of `pngpart`
(`src/main.rs`).  The PNG decode/encode layer, CLI handling and logging are
external collaborators and are not modelled.

Conventions of the embedding:
* bytes (`u8`) are natural numbers; the well-formedness predicate `WF`
  records that every stored byte is `< 256`;
* `u64`/`usize` arithmetic is modelled on `ℕ` (the quantities computed by the
  core — channel sums, truncating means, variance accumulators — stay far
  below `2^64` for any raster the program can hold, so wrap-around is not
  reachable and is not modelled);
* `img.data[idx]` (which panics when out of range in Rust) is modelled
  totally by `List.getD _ 0`; a separate `Option`-valued variant
  (`computeMeanChecked`, `compressorNewChecked`) makes the panicking
  behaviour of `compute_mean` / `Compressor::new` on malformed rasters
  explicit (`none` = panic);
* Rust's `BinaryHeap` is modelled as a multiset of items carried as a list:
  the deterministic runner `compressFuel` pops the first maximal element,
  and the relation `Step`/`ReachN` allows popping an arbitrary maximal
  element, covering every tie-breaking choice the real heap could make.
-/

/-- `struct Image` from `src/main.rs`: width, height, and the flat row-major
RGBA8 buffer `data` (4 bytes per pixel). -/
structure Image where
  width : ℕ
  height : ℕ
  data : List ℕ
deriving DecidableEq

/-- A raster is well formed when its buffer has exactly `width*height*4`
bytes and every byte fits in a `u8`. -/
def WF (img : Image) : Prop :=
  img.data.length = img.width * img.height * 4 ∧ ∀ v ∈ img.data, v < 256

instance (img : Image) : Decidable (WF img) := by
  unfold WF; exact instDecidableAnd

/-- `struct Bound` from `src/main.rs`: a half-open rectangle
`[x_min, x_max) × [y_min, y_max)`. -/
structure Bound where
  x_min : ℕ
  x_max : ℕ
  y_min : ℕ
  y_max : ℕ
deriving DecidableEq

/-- The byte at channel `k` of pixel `(j, i)` (column `j`, row `i`):
`img.data[4 * (i * img.width + j) + k]` in the source. -/
def chanVal (img : Image) (i j k : ℕ) : ℕ :=
  img.data.getD (4 * (i * img.width + j) + k) 0

/-- The index set of pixels of a region: pairs `(i, j)` = (row, column). -/
def regionIdx (b : Bound) : Finset (ℕ × ℕ) :=
  Finset.Ico b.y_min b.y_max ×ˢ Finset.Ico b.x_min b.x_max

/-- `w * h` of a region, exactly as `compute_mean` computes the divisor:
`(x_max - x_min) * (y_max - y_min)`. -/
def area (b : Bound) : ℕ := (b.x_max - b.x_min) * (b.y_max - b.y_min)

/-- Channel-`k` sum of `compute_mean`'s accumulation loop. -/
def chSum (img : Image) (b : Bound) (k : ℕ) : ℕ :=
  Finset.sum (regionIdx b) (fun p => chanVal img p.1 p.2 k)

/-- `compute_mean` from `src/main.rs`: per-channel truncating integer mean,
`mean[k] = (Σ bytes) / (w * h)`. -/
def computeMean (img : Image) (b : Bound) (k : ℕ) : ℕ :=
  chSum img b k / area b

/-- Channel-`k` part of the variance accumulation in `HeapItem::new`:
`Σ (value - mean[k])^2` over the region's pixels. -/
def chVar (img : Image) (b : Bound) (k : ℕ) : ℕ :=
  Finset.sum (regionIdx b)
    (fun p => ((chanVal img p.1 p.2 k : ℤ) - (computeMean img b k : ℤ)).natAbs ^ 2)

/-- The full variance score computed by `HeapItem::new`: the squared
deviations summed over all pixels and all 4 channels. -/
def varScore (img : Image) (b : Bound) : ℕ :=
  Finset.sum (Finset.range 4) (fun k => chVar img b k)

/-- `struct HeapItem`: the queue entry, a variance score plus its region.
Its `Ord` instance in the source compares the `var` field only. -/
structure HeapItem where
  var : ℕ
  bound : Bound
deriving DecidableEq

/-- `HeapItem::new`: score a region. -/
def HeapItem.new (img : Image) (b : Bound) : HeapItem :=
  ⟨varScore img b, b⟩

/-- `bx0` in `add_detail`: left vertical half, columns `[x_min, split_x)`. -/
def xHalf0 (b : Bound) : Bound :=
  ⟨b.x_min, (b.x_max + b.x_min) / 2, b.y_min, b.y_max⟩

/-- `bx1` in `add_detail`: right vertical half, columns `[split_x, x_max)`. -/
def xHalf1 (b : Bound) : Bound :=
  ⟨(b.x_max + b.x_min) / 2, b.x_max, b.y_min, b.y_max⟩

/-- `by0` in `add_detail`: top horizontal half, rows `[y_min, split_y)`. -/
def yHalf0 (b : Bound) : Bound :=
  ⟨b.x_min, b.x_max, b.y_min, (b.y_max + b.y_min) / 2⟩

/-- `by1` in `add_detail`: bottom horizontal half, rows `[split_y, y_max)`. -/
def yHalf1 (b : Bound) : Bound :=
  ⟨b.x_min, b.x_max, (b.y_max + b.y_min) / 2, b.y_max⟩

/-- The first guard of `add_detail`:
`split_x > bound.x_min && bound.x_max > split_x`. -/
def canSplitX (b : Bound) : Prop :=
  (b.x_max + b.x_min) / 2 > b.x_min ∧ b.x_max > (b.x_max + b.x_min) / 2

instance (b : Bound) : Decidable (canSplitX b) := by
  unfold canSplitX; exact instDecidableAnd

/-- The second guard of `add_detail`:
`split_y > bound.y_min && bound.y_max > split_y`. -/
def canSplitY (b : Bound) : Prop :=
  (b.y_max + b.y_min) / 2 > b.y_min ∧ b.y_max > (b.y_max + b.y_min) / 2

instance (b : Bound) : Decidable (canSplitY b) := by
  unfold canSplitY; exact instDecidableAnd

/-- The pair of children `add_detail` pushes for a popped region, following
the branch structure of the source: if the region is splittable on x,
either compare against the y candidates (strict `<` prefers the x pair)
or push the x pair outright; otherwise unconditionally push the y pair. -/
def children (img : Image) (b : Bound) : List HeapItem :=
  if canSplitX b then
    if canSplitY b then
      if varScore img (xHalf0 b) + varScore img (xHalf1 b) <
          varScore img (yHalf0 b) + varScore img (yHalf1 b) then
        [HeapItem.new img (xHalf0 b), HeapItem.new img (xHalf1 b)]
      else
        [HeapItem.new img (yHalf0 b), HeapItem.new img (yHalf1 b)]
    else
      [HeapItem.new img (xHalf0 b), HeapItem.new img (xHalf1 b)]
  else
    [HeapItem.new img (yHalf0 b), HeapItem.new img (yHalf1 b)]

/-- The whole-raster region `Bound::new(0, img.width, 0, img.height)` used by
`Compressor::new`. -/
def wholeBound (img : Image) : Bound :=
  ⟨0, img.width, 0, img.height⟩

/-- The single entry `Compressor::new` seeds the heap with. -/
def initItem (img : Image) : HeapItem :=
  HeapItem.new img (wholeBound img)

/-- `BinaryHeap::pop` on the list model: remove the first element with the
maximal `var` (`HeapItem`'s ordering compares `var` only).  Returns `none`
exactly on the empty heap (where the source's `unwrap` would panic). -/
def popMax : List HeapItem → Option (HeapItem × List HeapItem)
  | [] => none
  | x :: xs =>
    match popMax xs with
    | none => some (x, [])
    | some (m, rest) => if m.var > x.var then some (m, x :: rest) else some (x, xs)

/-- The `compress` loop with explicit fuel: while the maximum variance in
the queue exceeds the tolerance, pop the maximum (`add_detail`) and push its
two children.  `compress` itself runs this until the condition fails; the
termination development below shows fuel `width*height - 1` always
suffices. -/
def compressFuel (img : Image) (tol : ℕ) : ℕ → List HeapItem → List HeapItem
  | 0, q => q
  | fuel + 1, q =>
    match popMax q with
    | none => q
    | some (it, rest) =>
      if tol < it.var then compressFuel img tol fuel (rest ++ children img it.bound)
      else q

/-- The queue left by `Compressor::new` + `compress(tolerance)`. -/
def runCompress (img : Image) (tol : ℕ) : List HeapItem :=
  compressFuel img tol (img.width * img.height - 1) [initItem img]

/-- Pixel `(x, y)` (column, row) lies in a region. -/
def memB (b : Bound) (x y : ℕ) : Prop :=
  b.x_min ≤ x ∧ x < b.x_max ∧ b.y_min ≤ y ∧ y < b.y_max

instance (b : Bound) (x y : ℕ) : Decidable (memB b x y) := by
  unfold memB; infer_instance

/-- Two regions are disjoint: no pixel lies in both. -/
def disjointB (b1 b2 : Bound) : Prop :=
  ∀ x y, memB b1 x y → memB b2 x y → False

/-- A region is non-degenerate and nested inside the raster. -/
def ValidB (img : Image) (b : Bound) : Prop :=
  b.x_min < b.x_max ∧ b.y_min < b.y_max ∧ b.x_max ≤ img.width ∧ b.y_max ≤ img.height

/-- One iteration of the `compress` loop: some maximal-variance entry whose
score exceeds the tolerance is popped (`BinaryHeap::pop` removes an entry
that is maximal for the `var`-only ordering; which one among ties is the
heap's choice, so the relation permits any) and its two children are
pushed. -/
inductive Step (img : Image) (tol : ℕ) : List HeapItem → List HeapItem → Prop where
  | split (l1 l2 : List HeapItem) (it : HeapItem)
      (hmax : ∀ x ∈ l1 ++ l2, x.var ≤ it.var)
      (htol : tol < it.var) :
      Step img tol (l1 ++ it :: l2) ((l1 ++ l2) ++ children img it.bound)

/-- Queue states reachable after `n` iterations of the `compress` loop,
starting from the single whole-raster entry pushed by `Compressor::new`. -/
inductive ReachN (img : Image) (tol : ℕ) : ℕ → List HeapItem → Prop where
  | base : ReachN img tol 0 [initItem img]
  | step {n : ℕ} {q q' : List HeapItem} :
      ReachN img tol n q → Step img tol q q' → ReachN img tol (n + 1) q'

/-- The engine's queue invariant: every entry is valid, entries are pairwise
disjoint, together they cover the raster, and each carried score is the
variance score of its region. -/
structure QInv (img : Image) (q : List HeapItem) : Prop where
  valid : ∀ it ∈ q, ValidB img it.bound
  disj : q.Pairwise (fun a b => disjointB a.bound b.bound)
  cover : ∀ x y, x < img.width → y < img.height → ∃ it ∈ q, memB it.bound x y
  scores : ∀ it ∈ q, it.var = varScore img it.bound

/-- Termination measure: total queue area minus one per entry. -/
def meas (q : List HeapItem) : ℕ :=
  (q.map (fun it => area it.bound - 1)).sum

/-- The `compress` loop's exit condition, phrased over the whole queue: the
loop stops when the maximal entry (and hence every entry) is within
tolerance. -/
def isDone (tol : ℕ) (q : List HeapItem) : Prop :=
  ∀ it ∈ q, it.var ≤ tol

/-- The sequence of `(i, j, k)` loop indices of the painting loops in
`reconstruct` (row `i` outermost, then column `j`, then channel `k`). -/
def paintIdxs (b : Bound) : List (ℕ × ℕ × ℕ) :=
  (List.range' b.y_min (b.y_max - b.y_min)).flatMap (fun i =>
    (List.range' b.x_min (b.x_max - b.x_min)).flatMap (fun j =>
      (List.range 4).map (fun k => (i, j, k))))

/-- Flat buffer index of `(i, j, k)`: `4 * (i * width + j) + k`. -/
def encIdx (w : ℕ) (t : ℕ × ℕ × ℕ) : ℕ :=
  4 * (t.1 * w + t.2.1) + t.2.2

/-- The column and row a flat buffer index decodes to (`idx = 4*(i*w+j)+k`
with `j < w`, `k < 4`). -/
def decX (w p : ℕ) : ℕ := p / 4 % w

def decY (w p : ℕ) : ℕ := p / 4 / w

/-- One region's painting pass of `reconstruct`: recompute the region's mean
from the source raster and store `mean[k] as u8` (modelled as `% 256`) at
every buffer position of the region. -/
def paint (img : Image) (b : Bound) (out : List ℕ) : List ℕ :=
  (paintIdxs b).foldl
    (fun acc t => acc.set (encIdx img.width t) (computeMean img b t.2.2 % 256)) out

/-- `Compressor::reconstruct`'s output buffer: start from the freshly
allocated `vec![0u8; self.img.data.len()]` and paint every queue entry. -/
def reconstructData (img : Image) (q : List HeapItem) : List ℕ :=
  q.foldl (fun acc it => paint img it.bound acc) (List.replicate img.data.length 0)

/-- `Compressor::reconstruct`: an output raster of the same dimensions whose
buffer is the painted fresh buffer.  The source raster is not modified (the
source only reads `self.img`). -/
def reconstruct (img : Image) (q : List HeapItem) : Image :=
  ⟨img.width, img.height, reconstructData img q⟩

/-- The conditions under which `compute_mean` panics in Rust: some loop
iteration indexes `img.data` out of range, or the divisor `w * h` is zero
(division by zero).  The source contains no validation guarding these. -/
def meanPanics (img : Image) (b : Bound) : Prop :=
  (∃ p ∈ regionIdx b, ∃ k ∈ Finset.range 4,
      img.data.length ≤ 4 * (p.1 * img.width + p.2) + k) ∨ area b = 0

instance (img : Image) (b : Bound) : Decidable (meanPanics img b) := by
  unfold meanPanics; infer_instance

/-- `compute_mean` with Rust's panic behaviour made explicit: `none` models
a panic (index out of bounds or division by zero), `some` returns the four
channel means. -/
def computeMeanChecked (img : Image) (b : Bound) : Option (List ℕ) :=
  if meanPanics img b then none
  else some ((List.range 4).map (computeMean img b))

/-- `Compressor::new` with panic behaviour explicit: it immediately calls
`HeapItem::new`, whose first action is `compute_mean` on the whole-raster
region; `none` models a panic, `some` the seeded queue entry. -/
def compressorNewChecked (img : Image) : Option HeapItem :=
  match computeMeanChecked img (wholeBound img) with
  | none => none
  | some _ => some (initItem img)

/-- Total variance carried by a list of queue entries. -/
def sumVar (l : List HeapItem) : ℕ :=
  (l.map (fun it => it.var)).sum

/-! ### Basic structural lemmas -/

theorem children_length (img : Image) (b : Bound) : (children img b).length = 2 := by
  unfold children
  split_ifs <;> rfl

theorem popMax_eq_none {l : List HeapItem} : popMax l = none ↔ l = [] := by
  cases l with
  | nil => simp [popMax]
  | cons x xs =>
    simp only [popMax]
    cases h : popMax xs with
    | none => simp
    | some r => cases r with
      | mk m rest => by_cases hc : m.var > x.var <;> simp [hc]

theorem popMax_spec {l : List HeapItem} {it : HeapItem} {rest : List HeapItem}
    (h : popMax l = some (it, rest)) :
    ∃ l1 l2, l = l1 ++ it :: l2 ∧ rest = l1 ++ l2 ∧ ∀ x ∈ rest, x.var ≤ it.var := by
  induction l generalizing it rest with
  | nil => simp [popMax] at h
  | cons x xs ih =>
    simp only [popMax] at h
    cases hx : popMax xs with
    | none =>
      rw [hx] at h
      have hxs : xs = [] := popMax_eq_none.mp hx
      cases h
      exact ⟨[], [], by simp [hxs], rfl, by simp⟩
    | some r =>
      obtain ⟨m, r'⟩ := r
      rw [hx] at h
      obtain ⟨m1, m2, hxs, hr', hmax⟩ := ih hx
      by_cases hc : m.var > x.var
      · simp only [hc, if_true] at h
        cases h
        refine ⟨x :: m1, m2, by simp [hxs], by simp [hr'], ?_⟩
        intro z hz
        rcases List.mem_cons.mp hz with hz | hz
        · subst hz; omega
        · exact hmax z (hr' ▸ hz)
      · simp only [hc, if_false] at h
        cases h
        refine ⟨[], xs, rfl, rfl, ?_⟩
        intro z hz
        rw [hxs] at hz
        rcases List.mem_append.mp hz with hz | hz
        · have : z ∈ r' := by rw [hr']; exact List.mem_append.mpr (Or.inl hz)
          have := hmax z this
          omega
        · rcases List.mem_cons.mp hz with hz | hz
          · subst hz; omega
          · have : z ∈ r' := by rw [hr']; exact List.mem_append.mpr (Or.inr hz)
            have := hmax z this
            omega

theorem card_regionIdx (b : Bound) : (regionIdx b).card = area b := by
  unfold regionIdx area
  rw [Finset.card_product, Nat.card_Ico, Nat.card_Ico, Nat.mul_comm]

theorem area_pos_of_valid {img : Image} {b : Bound} (h : ValidB img b) : 1 ≤ area b := by
  obtain ⟨h1, h2, _, _⟩ := h
  unfold area
  exact Nat.mul_pos (by omega) (by omega)

theorem varScore_of_area_le_one {img : Image} {b : Bound} (h : area b ≤ 1) :
    varScore img b = 0 := by
  rcases Nat.le_one_iff_eq_zero_or_eq_one.mp h with h0 | h1
  · -- empty region: the index set is empty, every channel sum is empty
    have hempty : regionIdx b = ∅ := by
      have := card_regionIdx b
      rw [h0] at this
      exact Finset.card_eq_zero.mp this
    unfold varScore chVar
    simp [hempty]
  · -- 1×1 region: the mean is the single pixel value, all deviations vanish
    obtain ⟨hx, hy⟩ := mul_eq_one.mp h1
    have hsing : regionIdx b = {(b.y_min, b.x_min)} := by
      unfold regionIdx
      have hx' : b.x_max = b.x_min + 1 := by omega
      have hy' : b.y_max = b.y_min + 1 := by omega
      rw [hx', hy']
      ext p
      simp [Finset.mem_Ico]
    unfold varScore chVar computeMean chSum
    rw [hsing]
    simp [h1]

/-! ### Split geometry: the candidate halves partition the parent region -/

theorem xsplit_mem (b : Bound) (x y : ℕ) :
    memB b x y ↔ (memB (xHalf0 b) x y ∨ memB (xHalf1 b) x y) := by
  unfold memB xHalf0 xHalf1
  simp only
  omega

theorem ysplit_mem (b : Bound) (x y : ℕ) :
    memB b x y ↔ (memB (yHalf0 b) x y ∨ memB (yHalf1 b) x y) := by
  unfold memB yHalf0 yHalf1
  simp only
  omega

theorem xsplit_disj (b : Bound) : disjointB (xHalf0 b) (xHalf1 b) := by
  intro x y h1 h2
  simp only [memB, xHalf0, xHalf1] at h1 h2
  omega

theorem ysplit_disj (b : Bound) : disjointB (yHalf0 b) (yHalf1 b) := by
  intro x y h1 h2
  simp only [memB, yHalf0, yHalf1] at h1 h2
  omega

theorem xsplit_area (b : Bound) (h : canSplitX b) :
    area (xHalf0 b) + area (xHalf1 b) = area b := by
  unfold canSplitX at h
  unfold area xHalf0 xHalf1
  simp only
  rw [← Nat.add_mul]
  congr 1
  omega

theorem ysplit_area (b : Bound) (h : canSplitY b) :
    area (yHalf0 b) + area (yHalf1 b) = area b := by
  unfold canSplitY at h
  unfold area yHalf0 yHalf1
  simp only
  rw [← Nat.mul_add]
  congr 1
  omega

theorem xsplit_valid {img : Image} {b : Bound} (hv : ValidB img b) (h : canSplitX b) :
    ValidB img (xHalf0 b) ∧ ValidB img (xHalf1 b) := by
  unfold ValidB at hv ⊢
  unfold canSplitX at h
  unfold xHalf0 xHalf1
  simp only
  omega

theorem ysplit_valid {img : Image} {b : Bound} (hv : ValidB img b) (h : canSplitY b) :
    ValidB img (yHalf0 b) ∧ ValidB img (yHalf1 b) := by
  unfold ValidB at hv ⊢
  unfold canSplitY at h
  unfold yHalf0 yHalf1
  simp only
  omega

/-- If the x guard of `add_detail` fails on a valid region, the region has
width exactly 1. -/
theorem width_one_of_not_canSplitX {img : Image} {b : Bound}
    (hv : ValidB img b) (h : ¬ canSplitX b) : b.x_max = b.x_min + 1 := by
  unfold ValidB at hv
  unfold canSplitX at h
  omega

/-- A valid region of width 1 and area ≥ 2 is splittable on y. -/
theorem canSplitY_of_width_one {b : Bound}
    (hw : b.x_max = b.x_min + 1) (ha : 2 ≤ area b) : canSplitY b := by
  have : area b = b.y_max - b.y_min := by
    unfold area
    rw [hw]
    simp
  unfold canSplitY
  omega

/-- For a valid region of area at least 2 `add_detail` pushes exactly two
children that partition the popped region: both children are valid, their
pixel sets are disjoint and union to the parent's, and their areas sum to
the parent's. -/
theorem children_spec {img : Image} {b : Bound} (hv : ValidB img b) (ha : 2 ≤ area b) :
    ∃ c1 c2 : Bound, children img b = [HeapItem.new img c1, HeapItem.new img c2] ∧
      ValidB img c1 ∧ ValidB img c2 ∧
      (∀ x y, memB b x y ↔ (memB c1 x y ∨ memB c2 x y)) ∧
      disjointB c1 c2 ∧
      area c1 + area c2 = area b := by
  unfold children
  split_ifs with h1 h2 h3
  · exact ⟨xHalf0 b, xHalf1 b, rfl, (xsplit_valid hv h1).1, (xsplit_valid hv h1).2,
      xsplit_mem b, xsplit_disj b, xsplit_area b h1⟩
  · exact ⟨yHalf0 b, yHalf1 b, rfl, (ysplit_valid hv h2).1, (ysplit_valid hv h2).2,
      ysplit_mem b, ysplit_disj b, ysplit_area b h2⟩
  · exact ⟨xHalf0 b, xHalf1 b, rfl, (xsplit_valid hv h1).1, (xsplit_valid hv h1).2,
      xsplit_mem b, xsplit_disj b, xsplit_area b h1⟩
  · have hw := width_one_of_not_canSplitX hv h1
    have hy := canSplitY_of_width_one hw ha
    exact ⟨yHalf0 b, yHalf1 b, rfl, (ysplit_valid hv hy).1, (ysplit_valid hv hy).2,
      ysplit_mem b, ysplit_disj b, ysplit_area b hy⟩

/-! ### Queue invariant: preservation along the compress loop -/

theorem disjointB_symm {b1 b2 : Bound} (h : disjointB b1 b2) : disjointB b2 b1 :=
  fun x y h2 h1 => h x y h1 h2

theorem disjointB_mono {a p c : Bound} (h : disjointB a p)
    (hsub : ∀ x y, memB c x y → memB p x y) : disjointB a c :=
  fun x y hxa hxc => h x y hxa (hsub x y hxc)

theorem qinv_init {img : Image} (hw : 0 < img.width) (hh : 0 < img.height) :
    QInv img [initItem img] := by
  refine ⟨?_, ?_, ?_, ?_⟩
  · intro it hit
    rw [List.mem_singleton] at hit
    subst hit
    exact ⟨hw, hh, le_refl _, le_refl _⟩
  · exact List.pairwise_singleton _ _
  · intro x y hx hy
    refine ⟨initItem img, List.mem_singleton_self _, ?_⟩
    unfold initItem HeapItem.new wholeBound memB
    exact ⟨Nat.zero_le x, hx, Nat.zero_le y, hy⟩
  · intro it hit
    rw [List.mem_singleton] at hit
    subst hit
    rfl

/-- Anatomy of one compress step under the invariant: the popped entry is a
valid region of area at least 2, and the two pushed children partition it. -/
theorem step_parts {img : Image} {tol : ℕ} {q q' : List HeapItem}
    (hs : Step img tol q q') (hi : QInv img q) :
    ∃ (l1 l2 : List HeapItem) (it : HeapItem) (c1 c2 : Bound),
      q = l1 ++ it :: l2 ∧
      q' = (l1 ++ l2) ++ [HeapItem.new img c1, HeapItem.new img c2] ∧
      (∀ x ∈ l1 ++ l2, x.var ≤ it.var) ∧
      tol < it.var ∧
      ValidB img it.bound ∧ 2 ≤ area it.bound ∧
      ValidB img c1 ∧ ValidB img c2 ∧
      (∀ x y, memB it.bound x y ↔ (memB c1 x y ∨ memB c2 x y)) ∧
      disjointB c1 c2 ∧
      area c1 + area c2 = area it.bound := by
  obtain ⟨l1, l2, it, hmax, htol⟩ := hs
  have hit : it ∈ l1 ++ it :: l2 := by simp
  have hval := hi.valid it hit
  have hscore := hi.scores it hit
  have ha : 2 ≤ area it.bound := by
    by_contra hlt
    push_neg at hlt
    have : varScore img it.bound = 0 := varScore_of_area_le_one (by omega)
    rw [hscore, this] at htol
    omega
  obtain ⟨c1, c2, hch, hv1, hv2, hmem, hd, harea⟩ := children_spec hval ha
  exact ⟨l1, l2, it, c1, c2, rfl, by rw [hch], hmax, htol, hval, ha, hv1, hv2, hmem, hd, harea⟩

theorem qinv_step {img : Image} {tol : ℕ} {q q' : List HeapItem}
    (hs : Step img tol q q') (hi : QInv img q) : QInv img q' := by
  obtain ⟨l1, l2, it, c1, c2, hq, hq', hmax, htol, hvb, ha, hv1, hv2, hmem, hd, harea⟩ :=
    step_parts hs hi
  subst hq hq'
  have hmem1 : ∀ x ∈ l1 ++ l2, x ∈ l1 ++ it :: l2 := by
    intro x hx
    rcases List.mem_append.mp hx with hx | hx
    · exact List.mem_append.mpr (Or.inl hx)
    · exact List.mem_append.mpr (Or.inr (List.mem_cons_of_mem _ hx))
  refine ⟨?_, ?_, ?_, ?_⟩
  · intro x hx
    rcases List.mem_append.mp hx with hx | hx
    · exact hi.valid x (hmem1 x hx)
    · rcases List.mem_cons.mp hx with hx | hx
      · subst hx; exact hv1
      · rw [List.mem_singleton] at hx; subst hx; exact hv2
  · -- pairwise disjointness
    have hp := hi.disj
    rw [List.pairwise_append] at hp
    obtain ⟨hp1, hp2', hcross⟩ := hp
    rw [List.pairwise_cons] at hp2'
    obtain ⟨hitl2, hp2⟩ := hp2'
    -- every old survivor is disjoint from the popped region
    have hold : ∀ a ∈ l1 ++ l2, disjointB a.bound it.bound := by
      intro a haa
      rcases List.mem_append.mp haa with haa | haa
      · exact hcross a haa it (List.mem_cons_self _ _)
      · exact disjointB_symm (hitl2 a haa)
    rw [List.pairwise_append]
    refine ⟨?_, ?_, ?_⟩
    · rw [List.pairwise_append]
      exact ⟨hp1, hp2, fun a ha' b hb => hcross a ha' b (List.mem_cons_of_mem _ hb)⟩
    · refine List.pairwise_cons.mpr ⟨?_, List.pairwise_singleton _ _⟩
      intro b hb
      rw [List.mem_singleton] at hb
      subst hb
      exact hd
    · intro a ha' b hb
      have hdis := hold a ha'
      rcases List.mem_cons.mp hb with hb | hb
      · subst hb
        exact disjointB_mono hdis (fun x y hc => (hmem x y).mpr (Or.inl hc))
      · rw [List.mem_singleton] at hb
        subst hb
        exact disjointB_mono hdis (fun x y hc => (hmem x y).mpr (Or.inr hc))
  · intro x y hx hy
    obtain ⟨u, hu, hmu⟩ := hi.cover x y hx hy
    rcases List.mem_append.mp hu with hu | hu
    · exact ⟨u, List.mem_append.mpr (Or.inl (List.mem_append.mpr (Or.inl hu))), hmu⟩
    · rcases List.mem_cons.mp hu with hu | hu
      · subst hu
        rcases (hmem x y).mp hmu with hc | hc
        · exact ⟨HeapItem.new img c1,
            List.mem_append.mpr (Or.inr (List.mem_cons_self _ _)), hc⟩
        · exact ⟨HeapItem.new img c2,
            List.mem_append.mpr (Or.inr (List.mem_cons_of_mem _ (List.mem_singleton_self _))), hc⟩
      · exact ⟨u, List.mem_append.mpr (Or.inl (List.mem_append.mpr (Or.inr hu))), hmu⟩
  · intro x hx
    rcases List.mem_append.mp hx with hx | hx
    · exact hi.scores x (hmem1 x hx)
    · rcases List.mem_cons.mp hx with hx | hx
      · subst hx; rfl
      · rw [List.mem_singleton] at hx; subst hx; rfl

theorem reach_qinv {img : Image} {tol n : ℕ} {q : List HeapItem}
    (hw : 0 < img.width) (hh : 0 < img.height)
    (hr : ReachN img tol n q) : QInv img q := by
  induction hr with
  | base => exact qinv_init hw hh
  | step _ hs ih => exact qinv_step hs ih

/-! ### Measure and length bookkeeping -/

theorem meas_append (xs ys : List HeapItem) : meas (xs ++ ys) = meas xs + meas ys := by
  unfold meas
  rw [List.map_append, List.sum_append]

theorem meas_step {img : Image} {tol : ℕ} {q q' : List HeapItem}
    (hs : Step img tol q q') (hi : QInv img q) : meas q' + 1 = meas q := by
  obtain ⟨l1, l2, it, c1, c2, hq, hq', _, _, hvb, ha, hv1, hv2, _, _, harea⟩ :=
    step_parts hs hi
  subst hq hq'
  have h1 := area_pos_of_valid hv1
  have h2 := area_pos_of_valid hv2
  rw [meas_append, meas_append, meas_append]
  unfold meas
  simp only [List.map_cons, List.map_nil, List.sum_cons, List.sum_nil]
  unfold HeapItem.new
  simp only
  omega

theorem step_length {img : Image} {tol : ℕ} {q q' : List HeapItem}
    (hs : Step img tol q q') : q'.length = q.length + 1 := by
  obtain ⟨l1, l2, it, hmax, htol⟩ := hs
  rw [List.length_append, List.length_append, List.length_append, children_length]
  simp
  omega

theorem reach_length {img : Image} {tol n : ℕ} {q : List HeapItem}
    (hr : ReachN img tol n q) : q.length = n + 1 := by
  induction hr with
  | base => rfl
  | step _ hs ih => rw [step_length hs, ih]

theorem meas_init (img : Image) : meas [initItem img] = img.width * img.height - 1 := by
  unfold meas initItem HeapItem.new wholeBound area
  simp

theorem reach_meas {img : Image} {tol n : ℕ} {q : List HeapItem}
    (hw : 0 < img.width) (hh : 0 < img.height)
    (hr : ReachN img tol n q) : n + meas q = img.width * img.height - 1 := by
  induction hr with
  | base => rw [meas_init]; omega
  | step hr' hs ih =>
    have hi := reach_qinv hw hh hr'
    have := meas_step hs hi
    omega

/-! ### The deterministic loop instantiates the step relation; termination -/

theorem popMax_step {img : Image} {tol : ℕ} {q : List HeapItem} {it : HeapItem}
    {rest : List HeapItem} (h : popMax q = some (it, rest)) (htol : tol < it.var) :
    Step img tol q (rest ++ children img it.bound) := by
  obtain ⟨l1, l2, hq, hrest, hmax⟩ := popMax_spec h
  subst hq
  subst hrest
  exact Step.split l1 l2 it hmax htol

theorem compressFuel_reach {img : Image} {tol : ℕ} :
    ∀ (fuel : ℕ) {n : ℕ} {q : List HeapItem}, ReachN img tol n q →
      ∃ m, ReachN img tol (n + m) (compressFuel img tol fuel q) := by
  intro fuel
  induction fuel with
  | zero => exact fun hr => ⟨0, hr⟩
  | succ fuel ih =>
    intro n q hr
    unfold compressFuel
    cases hpop : popMax q with
    | none => exact ⟨0, hr⟩
    | some r =>
      obtain ⟨it, rest⟩ := r
      by_cases htol : tol < it.var
      · simp only [htol, if_true]
        obtain ⟨m, hm⟩ := ih (ReachN.step hr (popMax_step hpop htol))
        exact ⟨m + 1, by rw [show n + (m + 1) = n + 1 + m by omega]; exact hm⟩
      · simp only [htol, if_false]
        exact ⟨0, hr⟩

theorem runCompress_reach (img : Image) (tol : ℕ) :
    ∃ n, ReachN img tol n (runCompress img tol) := by
  obtain ⟨m, hm⟩ := compressFuel_reach (img.width * img.height - 1)
    (@ReachN.base img tol)
  exact ⟨0 + m, hm⟩

theorem isDone_of_meas_zero {img : Image} {tol : ℕ} {q : List HeapItem}
    (hi : QInv img q) (hm : meas q = 0) : isDone tol q := by
  intro it hit
  have hmem : area it.bound - 1 ∈ q.map (fun it => area it.bound - 1) :=
    List.mem_map_of_mem _ hit
  have hz : area it.bound - 1 = 0 := by
    unfold meas at hm
    exact List.sum_eq_zero_iff.mp hm _ hmem
  rw [hi.scores it hit, varScore_of_area_le_one (by omega)]
  exact Nat.zero_le tol

theorem compressFuel_done {img : Image} {tol : ℕ} :
    ∀ (fuel : ℕ) (q : List HeapItem), QInv img q → meas q ≤ fuel →
      isDone tol (compressFuel img tol fuel q) := by
  intro fuel
  induction fuel with
  | zero =>
    intro q hi hm
    unfold compressFuel
    exact isDone_of_meas_zero hi (by omega)
  | succ fuel ih =>
    intro q hi hm
    unfold compressFuel
    cases hpop : popMax q with
    | none =>
      intro it hit
      rw [popMax_eq_none.mp hpop] at hit
      simp at hit
    | some r =>
      obtain ⟨it, rest⟩ := r
      by_cases htol : tol < it.var
      · simp only [htol, if_true]
        have hstep : Step img tol q (rest ++ children img it.bound) := popMax_step hpop htol
        have hmeas := meas_step hstep hi
        exact ih _ (qinv_step hstep hi) (by omega)
      · simp only [htol, if_false]
        obtain ⟨l1, l2, hq, hrest, hmax⟩ := popMax_spec hpop
        intro x hx
        rw [hq] at hx
        rcases List.mem_append.mp hx with hx | hx
        · have : x ∈ rest := by rw [hrest]; exact List.mem_append.mpr (Or.inl hx)
          have := hmax x this
          omega
        · rcases List.mem_cons.mp hx with hx | hx
          · subst hx; omega
          · have : x ∈ rest := by rw [hrest]; exact List.mem_append.mpr (Or.inr hx)
            have := hmax x this
            omega

/-- `compress` halts with every queued region within tolerance, using at most
`width*height - 1` iterations of fuel. -/
theorem runCompress_done {img : Image} (tol : ℕ)
    (hw : 0 < img.width) (hh : 0 < img.height) :
    isDone tol (runCompress img tol) := by
  unfold runCompress
  exact compressFuel_done _ _ (qinv_init hw hh) (by rw [meas_init])

/-! ### Variance decomposition over ℚ, with truncating-integer means

The per-channel variance computed by `HeapItem::new` uses the *floor* mean
`sum / count`.  The exact (rational-mean) variance satisfies the classical
decomposition; flooring adds strictly less than one unit of squared error
per pixel, giving `var(C1) + var(C2) ≤ var(R) + |R|`. -/

def natSum (f : ℕ × ℕ → ℕ) (A : Finset (ℕ × ℕ)) : ℕ := Finset.sum A f

def natMean (f : ℕ × ℕ → ℕ) (A : Finset (ℕ × ℕ)) : ℕ := natSum f A / A.card

def natVar (f : ℕ × ℕ → ℕ) (A : Finset (ℕ × ℕ)) : ℕ :=
  Finset.sum A (fun p => ((f p : ℤ) - (natMean f A : ℤ)).natAbs ^ 2)

/-- The exact rational mean of `f` over `A`. -/
def ratMean (f : ℕ × ℕ → ℕ) (A : Finset (ℕ × ℕ)) : ℚ :=
  Finset.sum A (fun p => (f p : ℚ)) / A.card

theorem natVar_cast (f : ℕ × ℕ → ℕ) (A : Finset (ℕ × ℕ)) :
    (natVar f A : ℚ) = Finset.sum A (fun p => ((f p : ℚ) - (natMean f A : ℚ)) ^ 2) := by
  unfold natVar
  push_cast
  refine Finset.sum_congr rfl ?_
  intro p _
  rw [Int.cast_natAbs, Int.cast_abs, sq_abs]
  push_cast
  ring

theorem sum_sub_sq (A : Finset (ℕ × ℕ)) (g : ℕ × ℕ → ℚ) (c : ℚ) :
    Finset.sum A (fun p => (g p - c) ^ 2) =
      Finset.sum A (fun p => g p ^ 2) - 2 * c * Finset.sum A g + A.card * c ^ 2 := by
  have h : ∀ p ∈ A, (g p - c) ^ 2 = g p ^ 2 - 2 * c * g p + c ^ 2 := fun p _ => by ring
  rw [Finset.sum_congr rfl h, Finset.sum_add_distrib, Finset.sum_sub_distrib,
    ← Finset.mul_sum, Finset.sum_const, nsmul_eq_mul]

/-- Shifting the center of a sum of squared deviations away from the exact
mean costs exactly `card * (shift)^2`. -/
theorem sum_sub_sq_shift (f : ℕ × ℕ → ℕ) (A : Finset (ℕ × ℕ)) (c : ℚ)
    (hA : A.card ≠ 0) :
    Finset.sum A (fun p => ((f p : ℚ) - c) ^ 2) =
      Finset.sum A (fun p => ((f p : ℚ) - ratMean f A) ^ 2) +
        A.card * (c - ratMean f A) ^ 2 := by
  have hq : (A.card : ℚ) ≠ 0 := by exact_mod_cast hA
  rw [sum_sub_sq, sum_sub_sq]
  unfold ratMean
  field_simp
  ring

/-- The exact mean minimizes the sum of squared deviations. -/
theorem sum_sub_sq_min (f : ℕ × ℕ → ℕ) (A : Finset (ℕ × ℕ)) (c : ℚ)
    (hA : A.card ≠ 0) :
    Finset.sum A (fun p => ((f p : ℚ) - ratMean f A) ^ 2) ≤
      Finset.sum A (fun p => ((f p : ℚ) - c) ^ 2) := by
  rw [sum_sub_sq_shift f A c hA]
  have : (0 : ℚ) ≤ A.card * (c - ratMean f A) ^ 2 := by positivity
  linarith

/-- The floor mean lies within `(μ - 1, μ]` of the exact mean `μ`. -/
theorem natMean_bounds (f : ℕ × ℕ → ℕ) (A : Finset (ℕ × ℕ)) (hA : A.card ≠ 0) :
    (natMean f A : ℚ) ≤ ratMean f A ∧ ratMean f A < (natMean f A : ℚ) + 1 := by
  have hmod := Nat.div_add_mod (natSum f A) A.card
  have hlt : natSum f A % A.card < A.card := Nat.mod_lt _ (Nat.pos_of_ne_zero hA)
  have hsum : Finset.sum A (fun p => ((f p : ℕ) : ℚ)) = ((natSum f A : ℕ) : ℚ) := by
    unfold natSum
    rw [Nat.cast_sum]
  have hcast : ((natSum f A : ℕ) : ℚ) =
      A.card * (natMean f A : ℚ) + ((natSum f A % A.card : ℕ) : ℚ) := by
    unfold natMean
    exact_mod_cast hmod.symm
  have hcpos : (0 : ℚ) < A.card := by
    have : 0 < A.card := Nat.pos_of_ne_zero hA
    exact_mod_cast this
  have hrge : (0 : ℚ) ≤ ((natSum f A % A.card : ℕ) : ℚ) := by positivity
  have hrlt : ((natSum f A % A.card : ℕ) : ℚ) < A.card := by exact_mod_cast hlt
  unfold ratMean
  rw [hsum, hcast]
  constructor
  · rw [le_div_iff₀ hcpos]
    nlinarith
  · rw [div_lt_iff₀ hcpos]
    nlinarith

/-- The floor-mean penalty term is below one squared unit. -/
theorem natMean_pen_lt_one (f : ℕ × ℕ → ℕ) (A : Finset (ℕ × ℕ)) (hA : A.card ≠ 0) :
    ((natMean f A : ℚ) - ratMean f A) ^ 2 < 1 := by
  obtain ⟨h1, h2⟩ := natMean_bounds f A hA
  nlinarith

/-- Floor-mean variance = exact variance + floor penalty. -/
theorem natVar_decomp (f : ℕ × ℕ → ℕ) (A : Finset (ℕ × ℕ)) (hA : A.card ≠ 0) :
    (natVar f A : ℚ) =
      Finset.sum A (fun p => ((f p : ℚ) - ratMean f A) ^ 2) +
        A.card * ((natMean f A : ℚ) - ratMean f A) ^ 2 := by
  rw [natVar_cast, sum_sub_sq_shift f A _ hA]

/-- Main per-channel inequality: the floor-mean variances of two disjoint
nonempty halves exceed the union's floor-mean variance by less than the
union's pixel count. -/
theorem natVar_split (f : ℕ × ℕ → ℕ) (A1 A2 : Finset (ℕ × ℕ))
    (h1 : A1.Nonempty) (h2 : A2.Nonempty) (hd : Disjoint A1 A2) :
    natVar f A1 + natVar f A2 ≤ natVar f (A1 ∪ A2) + (A1 ∪ A2).card := by
  have hn1 : A1.card ≠ 0 := Finset.card_ne_zero_of_mem h1.choose_spec
  have hn2 : A2.card ≠ 0 := Finset.card_ne_zero_of_mem h2.choose_spec
  have hcard : (A1 ∪ A2).card = A1.card + A2.card := Finset.card_union_of_disjoint hd
  have hn : (A1 ∪ A2).card ≠ 0 := by omega
  -- decompose both halves
  have hv1 := natVar_decomp f A1 hn1
  have hv2 := natVar_decomp f A2 hn2
  have hp1 := natMean_pen_lt_one f A1 hn1
  have hp2 := natMean_pen_lt_one f A2 hn2
  -- each half's exact variance is at most its deviation sum about the union mean
  have hmin1 := sum_sub_sq_min f A1 (ratMean f (A1 ∪ A2)) hn1
  have hmin2 := sum_sub_sq_min f A2 (ratMean f (A1 ∪ A2)) hn2
  -- deviation sums about the union mean add up over the disjoint union
  have hsplit : Finset.sum (A1 ∪ A2) (fun p => ((f p : ℚ) - ratMean f (A1 ∪ A2)) ^ 2) =
      Finset.sum A1 (fun p => ((f p : ℚ) - ratMean f (A1 ∪ A2)) ^ 2) +
        Finset.sum A2 (fun p => ((f p : ℚ) - ratMean f (A1 ∪ A2)) ^ 2) :=
    Finset.sum_union hd
  -- the union's floor-mean variance dominates its exact variance
  have hvU : Finset.sum (A1 ∪ A2) (fun p => ((f p : ℚ) - ratMean f (A1 ∪ A2)) ^ 2) ≤
      (natVar f (A1 ∪ A2) : ℚ) := by
    rw [natVar_decomp f (A1 ∪ A2) hn]
    have : (0 : ℚ) ≤ ((A1 ∪ A2).card : ℚ) *
        ((natMean f (A1 ∪ A2) : ℚ) - ratMean f (A1 ∪ A2)) ^ 2 := by positivity
    linarith
  have hc1 : (0 : ℚ) ≤ (A1.card : ℚ) := by positivity
  have hc2 : (0 : ℚ) ≤ (A2.card : ℚ) := by positivity
  have hcards : ((A1 ∪ A2).card : ℚ) = (A1.card : ℚ) + A2.card := by exact_mod_cast hcard
  have hfinal : (natVar f A1 : ℚ) + natVar f A2 ≤
      (natVar f (A1 ∪ A2) : ℚ) + (A1 ∪ A2).card := by
    nlinarith
  exact_mod_cast hfinal

/-! ### Instantiating the variance inequality on the engine's splits -/

theorem computeMean_eq_natMean (img : Image) (b : Bound) (k : ℕ) :
    computeMean img b k = natMean (fun p => chanVal img p.1 p.2 k) (regionIdx b) := by
  unfold computeMean natMean natSum chSum
  rw [card_regionIdx]

theorem chVar_eq_natVar (img : Image) (b : Bound) (k : ℕ) :
    chVar img b k = natVar (fun p => chanVal img p.1 p.2 k) (regionIdx b) := by
  unfold chVar natVar
  rw [computeMean_eq_natMean]

theorem regionIdx_nonempty {b : Bound} (hx : b.x_min < b.x_max) (hy : b.y_min < b.y_max) :
    (regionIdx b).Nonempty := by
  refine ⟨(b.y_min, b.x_min), ?_⟩
  unfold regionIdx
  rw [Finset.mem_product]
  constructor <;> rw [Finset.mem_Ico] <;> omega

theorem regionIdx_xunion {b : Bound} (h : canSplitX b) :
    regionIdx (xHalf0 b) ∪ regionIdx (xHalf1 b) = regionIdx b := by
  unfold canSplitX at h
  ext p
  simp only [regionIdx, xHalf0, xHalf1, Finset.mem_union, Finset.mem_product, Finset.mem_Ico]
  omega

theorem regionIdx_xdisj (b : Bound) :
    Disjoint (regionIdx (xHalf0 b)) (regionIdx (xHalf1 b)) := by
  rw [Finset.disjoint_left]
  intro p hp1 hp2
  simp only [regionIdx, xHalf0, xHalf1, Finset.mem_product, Finset.mem_Ico] at hp1 hp2
  omega

theorem regionIdx_yunion {b : Bound} (h : canSplitY b) :
    regionIdx (yHalf0 b) ∪ regionIdx (yHalf1 b) = regionIdx b := by
  unfold canSplitY at h
  ext p
  simp only [regionIdx, yHalf0, yHalf1, Finset.mem_union, Finset.mem_product, Finset.mem_Ico]
  omega

theorem regionIdx_ydisj (b : Bound) :
    Disjoint (regionIdx (yHalf0 b)) (regionIdx (yHalf1 b)) := by
  rw [Finset.disjoint_left]
  intro p hp1 hp2
  simp only [regionIdx, yHalf0, yHalf1, Finset.mem_product, Finset.mem_Ico] at hp1 hp2
  omega

theorem varScore_split_x (img : Image) {b : Bound} (hx : canSplitX b)
    (hy : b.y_min < b.y_max) :
    varScore img (xHalf0 b) + varScore img (xHalf1 b) ≤ varScore img b + 4 * area b := by
  have hch : ∀ k, chVar img (xHalf0 b) k + chVar img (xHalf1 b) k ≤ chVar img b k + area b := by
    intro k
    rw [chVar_eq_natVar, chVar_eq_natVar, chVar_eq_natVar, ← card_regionIdx,
      ← regionIdx_xunion hx]
    exact natVar_split _ _ _
      (regionIdx_nonempty (by unfold xHalf0 canSplitX at *; simp only at *; omega)
        (by unfold xHalf0; exact hy))
      (regionIdx_nonempty (by unfold xHalf1 canSplitX at *; simp only at *; omega)
        (by unfold xHalf1; exact hy))
      (regionIdx_xdisj b)
  unfold varScore
  rw [← Finset.sum_add_distrib]
  calc Finset.sum (Finset.range 4) (fun k => chVar img (xHalf0 b) k + chVar img (xHalf1 b) k)
      ≤ Finset.sum (Finset.range 4) (fun k => chVar img b k + area b) :=
        Finset.sum_le_sum (fun k _ => hch k)
    _ = Finset.sum (Finset.range 4) (fun k => chVar img b k) + 4 * area b := by
        rw [Finset.sum_add_distrib, Finset.sum_const, Finset.card_range]
        simp [Nat.mul_comm]

theorem varScore_split_y (img : Image) {b : Bound} (hy : canSplitY b)
    (hx : b.x_min < b.x_max) :
    varScore img (yHalf0 b) + varScore img (yHalf1 b) ≤ varScore img b + 4 * area b := by
  have hch : ∀ k, chVar img (yHalf0 b) k + chVar img (yHalf1 b) k ≤ chVar img b k + area b := by
    intro k
    rw [chVar_eq_natVar, chVar_eq_natVar, chVar_eq_natVar, ← card_regionIdx,
      ← regionIdx_yunion hy]
    exact natVar_split _ _ _
      (regionIdx_nonempty (by unfold yHalf0; exact hx)
        (by unfold yHalf0 canSplitY at *; simp only at *; omega))
      (regionIdx_nonempty (by unfold yHalf1; exact hx)
        (by unfold yHalf1 canSplitY at *; simp only at *; omega))
      (regionIdx_ydisj b)
  unfold varScore
  rw [← Finset.sum_add_distrib]
  calc Finset.sum (Finset.range 4) (fun k => chVar img (yHalf0 b) k + chVar img (yHalf1 b) k)
      ≤ Finset.sum (Finset.range 4) (fun k => chVar img b k + area b) :=
        Finset.sum_le_sum (fun k _ => hch k)
    _ = Finset.sum (Finset.range 4) (fun k => chVar img b k) + 4 * area b := by
        rw [Finset.sum_add_distrib, Finset.sum_const, Finset.card_range]
        simp [Nat.mul_comm]

theorem sumVar_pair (a b : HeapItem) : sumVar [a, b] = a.var + b.var := by
  unfold sumVar
  simp

/-- The two children `add_detail` pushes for any non-degenerate region carry
at most the parent's variance score plus `4 * area` (one sub-unit flooring
penalty per pixel per channel). -/
theorem children_sumVar_le (img : Image) {b : Bound}
    (hx : b.x_min < b.x_max) (hy : b.y_min < b.y_max) :
    sumVar (children img b) ≤ varScore img b + 4 * area b := by
  unfold children
  split_ifs with h1 h2 h3
  · rw [sumVar_pair]
    exact varScore_split_x img h1 hy
  · rw [sumVar_pair]
    exact varScore_split_y img h2 hx
  · rw [sumVar_pair]
    exact varScore_split_x img h1 hy
  · by_cases hcy : canSplitY b
    · rw [sumVar_pair]
      exact varScore_split_y img hcy hx
    · -- the region is 1×1: the top "half" is empty and the bottom is the
      -- whole region, so the children's total variance equals the parent's
      have hsy : (b.y_max + b.y_min) / 2 = b.y_min := by
        unfold canSplitY at hcy
        omega
      have h0 : varScore img (yHalf0 b) = 0 := by
        refine varScore_of_area_le_one ?_
        unfold area yHalf0
        simp only
        rw [hsy]
        simp
      have h1' : yHalf1 b = b := by
        unfold yHalf1
        rw [hsy]
      rw [sumVar_pair]
      simp only [HeapItem.new]
      rw [h1', h0]
      omega

/-! ### Reading back painted buffers -/

theorem getD_set_self {l : List ℕ} {i a : ℕ} (h : i < l.length) :
    (l.set i a).getD i 0 = a := by
  simp [List.getD_eq_getElem?_getD, List.getElem?_set_self, h]

theorem getD_set_ne {l : List ℕ} {i j a : ℕ} (h : i ≠ j) :
    (l.set i a).getD j 0 = l.getD j 0 := by
  simp [List.getD_eq_getElem?_getD, List.getElem?_set_ne h]

theorem foldl_set_length (upd val : ℕ × ℕ × ℕ → ℕ) :
    ∀ (ts : List (ℕ × ℕ × ℕ)) (out : List ℕ),
      (ts.foldl (fun acc t => acc.set (upd t) (val t)) out).length = out.length := by
  intro ts
  induction ts with
  | nil => intro out; rfl
  | cons t ts ih =>
    intro out
    rw [List.foldl_cons, ih, List.length_set]

theorem paint_length (img : Image) (b : Bound) (out : List ℕ) :
    (paint img b out).length = out.length :=
  foldl_set_length (encIdx img.width) (fun t => computeMean img b t.2.2 % 256) (paintIdxs b) out

theorem foldl_set_getD_of_ne (upd val : ℕ × ℕ × ℕ → ℕ) :
    ∀ (ts : List (ℕ × ℕ × ℕ)) (out : List ℕ) (p : ℕ), (∀ t ∈ ts, upd t ≠ p) →
      (ts.foldl (fun acc t => acc.set (upd t) (val t)) out).getD p 0 = out.getD p 0 := by
  intro ts
  induction ts with
  | nil => intro out p _; rfl
  | cons t ts ih =>
    intro out p h
    rw [List.foldl_cons, ih _ _ (fun u hu => h u (List.mem_cons_of_mem _ hu)),
      getD_set_ne (h t (List.mem_cons_self _ _))]

theorem foldl_set_getD_of_mem (upd val : ℕ × ℕ × ℕ → ℕ) :
    ∀ (ts : List (ℕ × ℕ × ℕ)) (out : List ℕ) (p c : ℕ),
      (∀ t ∈ ts, upd t < out.length) → (∀ t ∈ ts, upd t = p → val t = c) →
      (∃ t ∈ ts, upd t = p) →
      (ts.foldl (fun acc t => acc.set (upd t) (val t)) out).getD p 0 = c := by
  intro ts
  induction ts with
  | nil =>
    intro out p c _ _ hex
    simp at hex
  | cons t ts ih =>
    intro out p c hlen hval hex
    rw [List.foldl_cons]
    by_cases hex' : ∃ u ∈ ts, upd u = p
    · exact ih _ _ _
        (fun u hu => by rw [List.length_set]; exact hlen u (List.mem_cons_of_mem _ hu))
        (fun u hu => hval u (List.mem_cons_of_mem _ hu)) hex'
    · have htp : upd t = p := by
        obtain ⟨u, hu, hup⟩ := hex
        rcases List.mem_cons.mp hu with hu | hu
        · subst hu; exact hup
        · exact absurd ⟨u, hu, hup⟩ hex'
      push_neg at hex'
      rw [foldl_set_getD_of_ne upd val ts _ p hex', htp,
        getD_set_self (htp ▸ hlen t (List.mem_cons_self _ _))]
      exact hval t (List.mem_cons_self _ _) htp

theorem mem_paintIdxs {b : Bound} {i j k : ℕ} :
    (i, j, k) ∈ paintIdxs b ↔
      (b.y_min ≤ i ∧ i < b.y_max ∧ b.x_min ≤ j ∧ j < b.x_max ∧ k < 4) := by
  unfold paintIdxs
  simp only [List.mem_flatMap, List.mem_map, List.mem_range', List.mem_range, Prod.mk.injEq]
  constructor
  · rintro ⟨i', ⟨n1, hn1, rfl⟩, j', ⟨n2, hn2, rfl⟩, k', hk', rfl, rfl, rfl⟩
    omega
  · rintro ⟨h1, h2, h3, h4, h5⟩
    exact ⟨i, ⟨i - b.y_min, by omega, by omega⟩, j, ⟨j - b.x_min, by omega, by omega⟩, k, h5,
      rfl, rfl, rfl⟩

theorem encIdx_lt {w h i j k : ℕ} (hi : i < h) (hj : j < w) (hk : k < 4) :
    encIdx w (i, j, k) < w * h * 4 := by
  unfold encIdx
  simp only
  have h1 : i * w + j + 1 ≤ h * w := by
    have ha : i * w + (j + 1) ≤ i * w + w := Nat.add_le_add_left (by omega) _
    have hb : i * w + w = (i + 1) * w := (Nat.succ_mul i w).symm
    have hc : (i + 1) * w ≤ h * w := Nat.mul_le_mul_right w hi
    omega
  calc 4 * (i * w + j) + k < 4 * (i * w + j + 1) := by omega
    _ ≤ 4 * (h * w) := by
        have := Nat.mul_le_mul_left 4 h1
        omega
    _ = w * h * 4 := by ring

theorem decode_encIdx {w i j k : ℕ} (hj : j < w) (hk : k < 4) :
    decY w (encIdx w (i, j, k)) = i ∧ decX w (encIdx w (i, j, k)) = j ∧
      encIdx w (i, j, k) % 4 = k := by
  have hw : 0 < w := by omega
  have hdiv : encIdx w (i, j, k) / 4 = i * w + j := by
    unfold encIdx
    simp only
    rw [Nat.mul_add_div (by omega), Nat.div_eq_of_lt hk]
    omega
  have hmod : encIdx w (i, j, k) % 4 = k := by
    unfold encIdx
    simp only
    rw [Nat.mul_add_mod, Nat.mod_eq_of_lt hk]
  refine ⟨?_, ?_, hmod⟩
  · unfold decY
    rw [hdiv, Nat.add_comm, Nat.add_mul_div_right _ _ hw, Nat.div_eq_of_lt hj]
    omega
  · unfold decX
    rw [hdiv, Nat.add_comm, Nat.add_mul_mod_self_right, Nat.mod_eq_of_lt hj]

theorem encode_decode {w p : ℕ} (hw : 0 < w) :
    encIdx w (decY w p, decX w p, p % 4) = p := by
  unfold encIdx decX decY
  simp only
  have h1 : p / 4 / w * w + p / 4 % w = p / 4 := by
    rw [Nat.mul_comm]
    exact Nat.div_add_mod (p / 4) w
  rw [h1]
  exact Nat.div_add_mod p 4

theorem paint_getD_mem {img : Image} {b : Bound} {out : List ℕ} {i j k : ℕ}
    (hlen : out.length = img.width * img.height * 4)
    (hbx : b.x_max ≤ img.width) (hby : b.y_max ≤ img.height)
    (hm : memB b j i) (hk : k < 4) :
    (paint img b out).getD (encIdx img.width (i, j, k)) 0 = computeMean img b k % 256 := by
  obtain ⟨hm1, hm2, hm3, hm4⟩ := hm
  unfold paint
  apply foldl_set_getD_of_mem
  · intro t ht
    obtain ⟨i', j', k'⟩ := t
    rw [mem_paintIdxs] at ht
    rw [hlen]
    exact encIdx_lt (by omega) (by omega) ht.2.2.2.2
  · intro t ht heq
    obtain ⟨i', j', k'⟩ := t
    rw [mem_paintIdxs] at ht
    have hd' := @decode_encIdx img.width i' j' k' (by omega : j' < img.width)
      ht.2.2.2.2
    have hd := @decode_encIdx img.width i j k (by omega : j < img.width) hk
    have : k' = k := by
      rw [← hd'.2.2, ← hd.2.2, heq]
    simp only
    rw [this]
  · refine ⟨(i, j, k), mem_paintIdxs.mpr ⟨hm3, hm4, hm1, hm2, hk⟩, rfl⟩

theorem paint_getD_not_mem {img : Image} {b : Bound} {out : List ℕ} {p : ℕ}
    (hbx : b.x_max ≤ img.width)
    (hnm : ¬ memB b (decX img.width p) (decY img.width p)) :
    (paint img b out).getD p 0 = out.getD p 0 := by
  unfold paint
  apply foldl_set_getD_of_ne
  intro t ht heq
  obtain ⟨i', j', k'⟩ := t
  rw [mem_paintIdxs] at ht
  have hd := @decode_encIdx img.width i' j' k' (by omega : j' < img.width)
    ht.2.2.2.2
  apply hnm
  rw [← heq, hd.1, hd.2.1]
  exact ⟨ht.2.2.1, ht.2.2.2.1, ht.1, ht.2.1⟩

/-! ### Characterizing the reconstructed buffer -/

theorem reconstructFold_length (img : Image) :
    ∀ (l : List HeapItem) (acc : List ℕ),
      (l.foldl (fun acc it => paint img it.bound acc) acc).length = acc.length := by
  intro l
  induction l with
  | nil => intro acc; rfl
  | cons u l ih =>
    intro acc
    rw [List.foldl_cons, ih, paint_length]

theorem reconstructData_length (img : Image) (q : List HeapItem) :
    (reconstructData img q).length = img.data.length := by
  unfold reconstructData
  rw [reconstructFold_length, List.length_replicate]

theorem getD_replicate {n p : ℕ} : (List.replicate n 0).getD p 0 = 0 := by
  rw [List.getD_eq_getElem?_getD]
  by_cases h : p < n
  · rw [List.getElem?_eq_getElem (by simpa using h)]
    simp [List.getElem_replicate]
  · rw [List.getElem?_eq_none (by simpa using Nat.le_of_not_lt h)]
    rfl

theorem reconstructFold_getD_not_mem {img : Image} :
    ∀ (l : List HeapItem) (acc : List ℕ) (p : ℕ),
      (∀ u ∈ l, u.bound.x_max ≤ img.width) →
      (∀ u ∈ l, ¬ memB u.bound (decX img.width p) (decY img.width p)) →
      (l.foldl (fun acc it => paint img it.bound acc) acc).getD p 0 = acc.getD p 0 := by
  intro l
  induction l with
  | nil => intro acc p _ _; rfl
  | cons u l ih =>
    intro acc p hb hnm
    rw [List.foldl_cons,
      ih _ _ (fun v hv => hb v (List.mem_cons_of_mem _ hv))
        (fun v hv => hnm v (List.mem_cons_of_mem _ hv)),
      paint_getD_not_mem (hb u (List.mem_cons_self _ _)) (hnm u (List.mem_cons_self _ _))]

theorem reconstructFold_getD_mem {img : Image} :
    ∀ (l : List HeapItem) (acc : List ℕ) {it : HeapItem} {i j k : ℕ},
      acc.length = img.width * img.height * 4 →
      l.Pairwise (fun a b => disjointB a.bound b.bound) →
      (∀ u ∈ l, ValidB img u.bound) →
      it ∈ l → memB it.bound j i → k < 4 →
      (l.foldl (fun acc it => paint img it.bound acc) acc).getD
          (encIdx img.width (i, j, k)) 0 = computeMean img it.bound k % 256 := by
  intro l
  induction l with
  | nil =>
    intro acc it i j k _ _ _ hit
    exact absurd hit (List.not_mem_nil _)
  | cons u l ih =>
    intro acc it i j k hlen hp hv hit hm hk
    rw [List.pairwise_cons] at hp
    obtain ⟨hu, hp⟩ := hp
    rw [List.foldl_cons]
    rcases List.mem_cons.mp hit with hit | hit
    · subst hit
      have hvu := hv it (List.mem_cons_self _ _)
      have hjw : j < img.width := by
        obtain ⟨_, _, hxw, _⟩ := hvu
        obtain ⟨_, h2, _, _⟩ := hm
        omega
      have hd := @decode_encIdx img.width i j k hjw hk
      rw [reconstructFold_getD_not_mem l _ _
        (fun v hv' => ((hv v (List.mem_cons_of_mem _ hv')).2.2.1))
        (fun v hv' hmv => by
          rw [hd.1, hd.2.1] at hmv
          exact hu v hv' j i hm hmv)]
      exact paint_getD_mem hlen hvu.2.2.1 hvu.2.2.2 hm hk
    · exact ih _ (by rw [paint_length]; exact hlen) hp
        (fun v hv' => hv v (List.mem_cons_of_mem _ hv')) hit hm hk

theorem reconstructData_getD_mem {img : Image} {q : List HeapItem} {it : HeapItem}
    {i j k : ℕ} (hwf : WF img)
    (hdisj : q.Pairwise (fun a b => disjointB a.bound b.bound))
    (hval : ∀ u ∈ q, ValidB img u.bound)
    (hit : it ∈ q) (hm : memB it.bound j i) (hk : k < 4) :
    (reconstructData img q).getD (encIdx img.width (i, j, k)) 0 =
      computeMean img it.bound k % 256 := by
  unfold reconstructData
  exact reconstructFold_getD_mem q _ (by rw [List.length_replicate]; exact hwf.1)
    hdisj hval hit hm hk

theorem reconstructData_getD_none {img : Image} {q : List HeapItem} {p : ℕ}
    (hb : ∀ u ∈ q, u.bound.x_max ≤ img.width)
    (h : ∀ u ∈ q, ¬ memB u.bound (decX img.width p) (decY img.width p)) :
    (reconstructData img q).getD p 0 = 0 := by
  unfold reconstructData
  rw [reconstructFold_getD_not_mem q _ p hb h]
  exact getD_replicate

/-! ### Channel means of well-formed rasters fit in a byte -/

theorem chanVal_lt_256 {img : Image} (hwf : WF img) (i j k : ℕ) :
    chanVal img i j k < 256 := by
  unfold chanVal
  rw [List.getD_eq_getElem?_getD]
  cases h : img.data[4 * (i * img.width + j) + k]? with
  | none => simp
  | some v =>
    have hv : v ∈ img.data := List.getElem?_mem h
    simpa using hwf.2 v hv

theorem computeMean_le_255 {img : Image} (hwf : WF img) (b : Bound) (k : ℕ) :
    computeMean img b k ≤ 255 := by
  unfold computeMean
  by_cases ha : area b = 0
  · rw [ha]
    simp
  · have hsum : chSum img b k ≤ 255 * area b := by
      unfold chSum
      calc Finset.sum (regionIdx b) (fun p => chanVal img p.1 p.2 k)
          ≤ Finset.sum (regionIdx b) (fun _ => 255) :=
            Finset.sum_le_sum (fun p _ => by
              have := chanVal_lt_256 hwf p.1 p.2 k
              omega)
        _ = 255 * area b := by
            rw [Finset.sum_const, card_regionIdx, smul_eq_mul, Nat.mul_comm]
    calc chSum img b k / area b ≤ 255 * area b / area b := Nat.div_le_div_right hsum
      _ = 255 := Nat.mul_div_cancel 255 (Nat.pos_of_ne_zero ha)

theorem computeMean_mod_256 {img : Image} (hwf : WF img) (b : Bound) (k : ℕ) :
    computeMean img b k % 256 = computeMean img b k :=
  Nat.mod_eq_of_lt (by have := computeMean_le_255 hwf b k; omega)

/-! ### Saturated tolerance: the loop exits immediately -/

theorem step_exists_hot {img : Image} {tol : ℕ} {q q' : List HeapItem}
    (hs : Step img tol q q') : ∃ it ∈ q, tol < it.var := by
  obtain ⟨l1, l2, it, hmax, htol⟩ := hs
  exact ⟨it, by simp, htol⟩

theorem reach_zero_of_tol_ge {img : Image} {tol n : ℕ} {q : List HeapItem}
    (htol : varScore img (wholeBound img) ≤ tol)
    (hr : ReachN img tol n q) : n = 0 ∧ q = [initItem img] := by
  induction hr with
  | base => exact ⟨rfl, rfl⟩
  | step hr' hs ih =>
    obtain ⟨hn, hq⟩ := ih
    subst hq
    obtain ⟨it, hit, hlt⟩ := step_exists_hot hs
    rw [List.mem_singleton] at hit
    subst hit
    exact absurd hlt (by unfold initItem HeapItem.new; simp only; omega)

theorem runCompress_of_tol_ge {img : Image} {tol : ℕ}
    (htol : varScore img (wholeBound img) ≤ tol) :
    runCompress img tol = [initItem img] := by
  unfold runCompress
  cases hf : img.width * img.height - 1 with
  | zero => rfl
  | succ n =>
    show compressFuel img tol (n + 1) [initItem img] = [initItem img]
    unfold compressFuel
    rw [show popMax [initItem img] = some (initItem img, []) from rfl]
    simp only
    rw [if_neg (by unfold initItem HeapItem.new; simp only; omega)]

/-! ### Malformed rasters make the unchecked core panic -/

theorem compressorNewChecked_none_of_zero {img : Image}
    (h : img.width = 0 ∨ img.height = 0) :
    compressorNewChecked img = none := by
  have hp : meanPanics img (wholeBound img) := by
    right
    unfold area wholeBound
    simp only [Nat.sub_zero]
    rcases h with h | h <;> simp [h]
  unfold compressorNewChecked computeMeanChecked
  rw [if_pos hp]

theorem compressorNewChecked_none_of_short {img : Image}
    (hw : 0 < img.width) (hh : 0 < img.height)
    (hlen : img.data.length < img.width * img.height * 4) :
    compressorNewChecked img = none := by
  have hp : meanPanics img (wholeBound img) := by
    left
    refine ⟨(img.height - 1, img.width - 1), ?_, 3, by simp, ?_⟩
    · unfold regionIdx wholeBound
      rw [Finset.mem_product]
      constructor <;> rw [Finset.mem_Ico] <;> simp <;> omega
    · simp only
      have h1 : (img.height - 1) * img.width = img.height * img.width - img.width :=
        Nat.sub_one_mul _ _
      have h3 : img.width * img.height = img.height * img.width := Nat.mul_comm _ _
      have h4 : img.width ≤ img.height * img.width := Nat.le_mul_of_pos_left _ hh
      omega
  unfold compressorNewChecked computeMeanChecked
  rw [if_pos hp]

theorem compressorNewChecked_some {img : Image} (hwf : WF img)
    (hw : 0 < img.width) (hh : 0 < img.height) :
    compressorNewChecked img = some (initItem img) := by
  have hp : ¬ meanPanics img (wholeBound img) := by
    intro hp
    rcases hp with ⟨p, hpmem, k, hk, hge⟩ | hz
    · unfold regionIdx wholeBound at hpmem
      simp only [Finset.mem_product, Finset.mem_Ico] at hpmem
      rw [Finset.mem_range] at hk
      have henc := @encIdx_lt img.width img.height p.1 p.2 k (by omega) (by omega) hk
      unfold encIdx at henc
      simp only at henc
      have hl := hwf.1
      omega
    · unfold area wholeBound at hz
      simp only [Nat.sub_zero] at hz
      rcases Nat.mul_eq_zero.mp hz with h | h <;> omega
  unfold compressorNewChecked computeMeanChecked
  rw [if_neg hp]

/-! ### Claim theorems -/

/-- C1: Disjoint-cover invariant.  For every well-formed non-empty raster
and every tolerance, at every point of `compress` (after `Compressor::new`'s
initialization and after each `add_detail`, i.e. in every reachable queue
state) every pixel `(x, y)` of the raster lies in exactly one queued region:
no gaps, no overlaps. -/
theorem c1_disjoint_cover (img : Image) (tol : ℕ) (hwf : WF img)
    (hw : 0 < img.width) (hh : 0 < img.height) {n : ℕ} {q : List HeapItem}
    (hr : ReachN img tol n q) (x y : ℕ) (hx : x < img.width) (hy : y < img.height) :
    ∃! it : HeapItem, it ∈ q ∧ memB it.bound x y := by
  have hi := reach_qinv hw hh hr
  obtain ⟨it, hit, hm⟩ := hi.cover x y hx hy
  refine ⟨it, ⟨hit, hm⟩, ?_⟩
  rintro it' ⟨hit', hm'⟩
  by_contra hne
  exact List.Pairwise.forall (fun a b h => disjointB_symm h) hi.disj hit' hit hne x y hm' hm

/-- Witness for C1 at a concrete raster and queue state. -/
theorem c1_disjoint_cover_witness :
    ∃! it : HeapItem, it ∈ [initItem ⟨1, 1, [0, 0, 0, 0]⟩] ∧ memB it.bound 0 0 :=
  c1_disjoint_cover ⟨1, 1, [0, 0, 0, 0]⟩ 0 (by decide) (by decide) (by decide)
    ReachN.base 0 0 (by decide) (by decide)

/-- C2 counterexample: on the uniform 2×2 raster the two pair scores tie
(`0 = 0`), yet `add_detail` pushes the horizontal (y-split) pair, not the
vertical pair, because the source compares with strict `<`.  This refutes
the claim that a tie favors the vertical pair. -/
theorem c2_counterexample :
    canSplitX (⟨0, 2, 0, 2⟩ : Bound) ∧ canSplitY (⟨0, 2, 0, 2⟩ : Bound) ∧
    varScore ⟨2, 2, List.replicate 16 0⟩ (xHalf0 ⟨0, 2, 0, 2⟩) +
        varScore ⟨2, 2, List.replicate 16 0⟩ (xHalf1 ⟨0, 2, 0, 2⟩) =
      varScore ⟨2, 2, List.replicate 16 0⟩ (yHalf0 ⟨0, 2, 0, 2⟩) +
        varScore ⟨2, 2, List.replicate 16 0⟩ (yHalf1 ⟨0, 2, 0, 2⟩) ∧
    children ⟨2, 2, List.replicate 16 0⟩ ⟨0, 2, 0, 2⟩ =
      [HeapItem.new ⟨2, 2, List.replicate 16 0⟩ (yHalf0 ⟨0, 2, 0, 2⟩),
       HeapItem.new ⟨2, 2, List.replicate 16 0⟩ (yHalf1 ⟨0, 2, 0, 2⟩)] ∧
    children ⟨2, 2, List.replicate 16 0⟩ ⟨0, 2, 0, 2⟩ ≠
      [HeapItem.new ⟨2, 2, List.replicate 16 0⟩ (xHalf0 ⟨0, 2, 0, 2⟩),
       HeapItem.new ⟨2, 2, List.replicate 16 0⟩ (xHalf1 ⟨0, 2, 0, 2⟩)] := by
  decide

/-- C2 amended: when a region is splittable along both axes, the vertical
(x-split) pair is pushed exactly when its total score is *strictly smaller*
than the horizontal pair's total; on ties the horizontal pair is pushed. -/
theorem c2_tie_break (img : Image) (b : Bound) (hx : canSplitX b) (hy : canSplitY b) :
    (children img b = [HeapItem.new img (xHalf0 b), HeapItem.new img (xHalf1 b)] ↔
      varScore img (xHalf0 b) + varScore img (xHalf1 b) <
        varScore img (yHalf0 b) + varScore img (yHalf1 b)) ∧
    (children img b = [HeapItem.new img (yHalf0 b), HeapItem.new img (yHalf1 b)] ↔
      varScore img (yHalf0 b) + varScore img (yHalf1 b) ≤
        varScore img (xHalf0 b) + varScore img (xHalf1 b)) := by
  have hvent : (xHalf0 b).x_max ≠ (yHalf0 b).x_max := by
    unfold xHalf0 yHalf0 canSplitX at *
    simp only at *
    omega
  have hne : HeapItem.new img (xHalf0 b) ≠ HeapItem.new img (yHalf0 b) :=
    fun he => hvent (congrArg (fun it => it.bound.x_max) he)
  unfold children
  rw [if_pos hx, if_pos hy]
  by_cases hlt : varScore img (xHalf0 b) + varScore img (xHalf1 b) <
      varScore img (yHalf0 b) + varScore img (yHalf1 b)
  · rw [if_pos hlt]
    refine ⟨⟨fun _ => hlt, fun _ => rfl⟩, ⟨fun he => ?_, fun hle => absurd hlt (by omega)⟩⟩
    injection he with h1 _
    exact absurd h1 hne
  · rw [if_neg hlt]
    refine ⟨⟨fun he => ?_, fun hlt' => absurd hlt' hlt⟩, ⟨fun _ => by omega, fun _ => rfl⟩⟩
    injection he with h1 _
    exact absurd h1.symm hne

/-- Witness for the amended C2 tie-break at a concrete tied input. -/
theorem c2_tie_break_witness :
    (children ⟨2, 2, List.replicate 16 0⟩ ⟨0, 2, 0, 2⟩ =
        [HeapItem.new ⟨2, 2, List.replicate 16 0⟩ (xHalf0 ⟨0, 2, 0, 2⟩),
         HeapItem.new ⟨2, 2, List.replicate 16 0⟩ (xHalf1 ⟨0, 2, 0, 2⟩)] ↔
      varScore ⟨2, 2, List.replicate 16 0⟩ (xHalf0 ⟨0, 2, 0, 2⟩) +
          varScore ⟨2, 2, List.replicate 16 0⟩ (xHalf1 ⟨0, 2, 0, 2⟩) <
        varScore ⟨2, 2, List.replicate 16 0⟩ (yHalf0 ⟨0, 2, 0, 2⟩) +
          varScore ⟨2, 2, List.replicate 16 0⟩ (yHalf1 ⟨0, 2, 0, 2⟩)) ∧
    (children ⟨2, 2, List.replicate 16 0⟩ ⟨0, 2, 0, 2⟩ =
        [HeapItem.new ⟨2, 2, List.replicate 16 0⟩ (yHalf0 ⟨0, 2, 0, 2⟩),
         HeapItem.new ⟨2, 2, List.replicate 16 0⟩ (yHalf1 ⟨0, 2, 0, 2⟩)] ↔
      varScore ⟨2, 2, List.replicate 16 0⟩ (yHalf0 ⟨0, 2, 0, 2⟩) +
          varScore ⟨2, 2, List.replicate 16 0⟩ (yHalf1 ⟨0, 2, 0, 2⟩) ≤
        varScore ⟨2, 2, List.replicate 16 0⟩ (xHalf0 ⟨0, 2, 0, 2⟩) +
          varScore ⟨2, 2, List.replicate 16 0⟩ (xHalf1 ⟨0, 2, 0, 2⟩)) :=
  c2_tie_break ⟨2, 2, List.replicate 16 0⟩ ⟨0, 2, 0, 2⟩ (by decide) (by decide)

/-- C3 counterexample: on the 1×6 raster with channel-0 column
`2, 2, 1, 1, 1, 0` the engine's midpoint split (the unconditional y-split,
since the region has width 1) produces children whose variance scores sum
to 4, exceeding the parent's score 3: truncating-integer-division means
break the exact variance decomposition. -/
theorem c3_counterexample :
    children ⟨1, 6, [2, 0, 0, 0, 2, 0, 0, 0, 1, 0, 0, 0, 1, 0, 0, 0, 1, 0, 0, 0, 0, 0, 0, 0]⟩
        ⟨0, 1, 0, 6⟩ =
      [⟨2, ⟨0, 1, 0, 3⟩⟩, ⟨2, ⟨0, 1, 3, 6⟩⟩] ∧
    varScore ⟨1, 6, [2, 0, 0, 0, 2, 0, 0, 0, 1, 0, 0, 0, 1, 0, 0, 0, 1, 0, 0, 0, 0, 0, 0, 0]⟩
        ⟨0, 1, 0, 6⟩ = 3 ∧
    ¬ (sumVar (children
          ⟨1, 6, [2, 0, 0, 0, 2, 0, 0, 0, 1, 0, 0, 0, 1, 0, 0, 0, 1, 0, 0, 0, 0, 0, 0, 0]⟩
          ⟨0, 1, 0, 6⟩) ≤
        varScore ⟨1, 6, [2, 0, 0, 0, 2, 0, 0, 0, 1, 0, 0, 0, 1, 0, 0, 0, 1, 0, 0, 0, 0, 0, 0, 0]⟩
          ⟨0, 1, 0, 6⟩) := by
  decide

/-- C3 amended: for any non-degenerate region, the children produced by the
engine's midpoint policy satisfy
`variance(C1) + variance(C2) ≤ variance(R) + 4 * area(R)`
(each of the `4 * area(R)` floor-mean penalties is below one squared unit;
the exact decomposition only holds for exact rational means). -/
theorem c3_variance_split_bound (img : Image) (b : Bound)
    (hx : b.x_min < b.x_max) (hy : b.y_min < b.y_max) :
    sumVar (children img b) ≤ varScore img b + 4 * area b :=
  children_sumVar_le img hx hy

/-- Witness for the amended C3 bound at the counterexample raster. -/
theorem c3_variance_split_bound_witness :
    sumVar (children
        ⟨1, 6, [2, 0, 0, 0, 2, 0, 0, 0, 1, 0, 0, 0, 1, 0, 0, 0, 1, 0, 0, 0, 0, 0, 0, 0]⟩
        ⟨0, 1, 0, 6⟩) ≤
      varScore ⟨1, 6, [2, 0, 0, 0, 2, 0, 0, 0, 1, 0, 0, 0, 1, 0, 0, 0, 1, 0, 0, 0, 0, 0, 0, 0]⟩
          ⟨0, 1, 0, 6⟩ + 4 * area ⟨0, 1, 0, 6⟩ :=
  c3_variance_split_bound
    ⟨1, 6, [2, 0, 0, 0, 2, 0, 0, 0, 1, 0, 0, 0, 1, 0, 0, 0, 1, 0, 0, 0, 0, 0, 0, 0]⟩
    ⟨0, 1, 0, 6⟩ (by decide) (by decide)

/-- C4: Bounded termination.  Any run of the `compress` loop performs at
most `width*height - 1` split steps, and the fueled loop with that much fuel
actually reaches the exit condition (every queued score within tolerance),
for every tolerance. -/
theorem c4_bounded_termination (img : Image) (tol : ℕ) (hwf : WF img)
    (hw : 0 < img.width) (hh : 0 < img.height) :
    (∀ (n : ℕ) (q : List HeapItem), ReachN img tol n q →
      n ≤ img.width * img.height - 1) ∧
    isDone tol (runCompress img tol) := by
  refine ⟨fun n q hr => ?_, runCompress_done tol hw hh⟩
  have := reach_meas hw hh hr
  omega

/-- Witness for C4 on a concrete 2×2 raster. -/
theorem c4_bounded_termination_witness :
    (∀ (n : ℕ) (q : List HeapItem),
      ReachN ⟨2, 2, [10, 0, 0, 0, 20, 0, 0, 0, 30, 0, 0, 0, 40, 0, 0, 0]⟩ 0 n q →
      n ≤ 2 * 2 - 1) ∧
    isDone 0 (runCompress ⟨2, 2, [10, 0, 0, 0, 20, 0, 0, 0, 30, 0, 0, 0, 40, 0, 0, 0]⟩ 0) :=
  c4_bounded_termination ⟨2, 2, [10, 0, 0, 0, 20, 0, 0, 0, 30, 0, 0, 0, 40, 0, 0, 0]⟩ 0
    (by decide) (by decide) (by decide)

/-- C5: Tolerance saturation.  If the tolerance is at least the whole-raster
variance score then no split step can occur (relationally: every reachable
state is the initial one), the deterministic run returns the single initial
region, and every output pixel of the reconstruction equals the truncating
per-channel mean of the entire input raster. -/
theorem c5_tolerance_saturation (img : Image) (tol : ℕ) (hwf : WF img)
    (hw : 0 < img.width) (hh : 0 < img.height)
    (htol : varScore img (wholeBound img) ≤ tol) :
    (∀ (n : ℕ) (q : List HeapItem), ReachN img tol n q → n = 0 ∧ q = [initItem img]) ∧
    runCompress img tol = [initItem img] ∧
    (∀ i j k, i < img.height → j < img.width → k < 4 →
      (reconstruct img (runCompress img tol)).data.getD (4 * (i * img.width + j) + k) 0 =
        computeMean img (wholeBound img) k) := by
  refine ⟨fun n q hr => reach_zero_of_tol_ge htol hr, runCompress_of_tol_ge htol, ?_⟩
  intro i j k hi hj hk
  rw [runCompress_of_tol_ge htol]
  show (reconstructData img [initItem img]).getD (encIdx img.width (i, j, k)) 0 = _
  have hm : memB (initItem img).bound j i := by
    unfold initItem HeapItem.new wholeBound memB
    exact ⟨Nat.zero_le _, hj, Nat.zero_le _, hi⟩
  rw [reconstructData_getD_mem hwf (List.pairwise_singleton _ _)
    (qinv_init hw hh).valid (List.mem_singleton_self _) hm hk,
    computeMean_mod_256 hwf]
  rfl

/-- Witness for C5 on a uniform 2×2 raster with tolerance 0. -/
theorem c5_tolerance_saturation_witness :
    (∀ (n : ℕ) (q : List HeapItem), ReachN ⟨2, 2, List.replicate 16 5⟩ 0 n q →
      n = 0 ∧ q = [initItem ⟨2, 2, List.replicate 16 5⟩]) ∧
    runCompress ⟨2, 2, List.replicate 16 5⟩ 0 = [initItem ⟨2, 2, List.replicate 16 5⟩] ∧
    (∀ i j k, i < (2 : ℕ) → j < (2 : ℕ) → k < 4 →
      (reconstruct ⟨2, 2, List.replicate 16 5⟩
          (runCompress ⟨2, 2, List.replicate 16 5⟩ 0)).data.getD (4 * (i * 2 + j) + k) 0 =
        computeMean ⟨2, 2, List.replicate 16 5⟩ (wholeBound ⟨2, 2, List.replicate 16 5⟩) k) :=
  c5_tolerance_saturation ⟨2, 2, List.replicate 16 5⟩ 0 (by decide) (by decide) (by decide)
    (by decide)

/-- C6 counterexample: on the malformed raster `{width 0, height 1, empty
buffer}` (which satisfies the claim's trigger `width == 0`), the real
`Compressor::new` panics — `compute_mean` divides by `w * h = 0` — modelled
by `none`; it does not return any error value, and the source defines no
`InvalidRaster` (or any other) error type.  The second conjunct shows an
over-long buffer (`pixels.len() = 5 ≠ 1*1*4`) being accepted silently.
Both refute the claim that malformed rasters are rejected with an explicit
error result instead of a panic. -/
theorem c6_counterexample :
    compressorNewChecked ⟨0, 1, []⟩ = none ∧
    compressorNewChecked ⟨1, 1, [0, 0, 0, 0, 0]⟩ =
      some (initItem ⟨1, 1, [0, 0, 0, 0, 0]⟩) := by
  decide

/-- C6 amended: the core performs no input validation at all.  With
`width = 0` or `height = 0`, `compute_mean` divides by zero (a panic); with
`0 < width`, `0 < height` and a buffer shorter than `width*height*4`, the
pixel loop indexes out of bounds (a panic); a well-formed raster is accepted
and seeds the queue.  No error result exists in the core. -/
theorem c6_no_validation (img : Image) :
    ((img.width = 0 ∨ img.height = 0) → compressorNewChecked img = none) ∧
    (0 < img.width → 0 < img.height → img.data.length < img.width * img.height * 4 →
      compressorNewChecked img = none) ∧
    (WF img → 0 < img.width → 0 < img.height →
      compressorNewChecked img = some (initItem img)) :=
  ⟨compressorNewChecked_none_of_zero,
   fun hw hh hl => compressorNewChecked_none_of_short hw hh hl,
   fun hwf hw hh => compressorNewChecked_some hwf hw hh⟩

/-- Witness for the amended C6 at the malformed raster. -/
theorem c6_no_validation_witness : compressorNewChecked ⟨0, 1, []⟩ = none :=
  (c6_no_validation ⟨0, 1, []⟩).1 (Or.inl rfl)

/-- C7: Reconstruction frame property.  `reconstruct` returns a raster of
identical width/height whose buffer is freshly allocated with
`img.data.len()` zero bytes (the source raster itself is never written: the
embedding of `reconstruct` only reads `img`).  Every buffer position whose
pixel lies in no remaining queue region keeps its zero initialization, and
every position inside a queued region holds that region's per-channel mean
recomputed from the original source raster. -/
theorem c7_reconstruction_frame (img : Image) (tol : ℕ) (hwf : WF img)
    (hw : 0 < img.width) (hh : 0 < img.height) :
    (reconstruct img (runCompress img tol)).width = img.width ∧
    (reconstruct img (runCompress img tol)).height = img.height ∧
    (reconstruct img (runCompress img tol)).data.length = img.data.length ∧
    (∀ p, (∀ it ∈ runCompress img tol,
        ¬ memB it.bound (decX img.width p) (decY img.width p)) →
      (reconstruct img (runCompress img tol)).data.getD p 0 = 0) ∧
    (∀ it ∈ runCompress img tol, ∀ i j k, memB it.bound j i → k < 4 →
      (reconstruct img (runCompress img tol)).data.getD (4 * (i * img.width + j) + k) 0 =
        computeMean img it.bound k) := by
  obtain ⟨n, hr⟩ := runCompress_reach img tol
  have hi := reach_qinv hw hh hr
  refine ⟨rfl, rfl, reconstructData_length img _, ?_, ?_⟩
  · intro p hnm
    exact reconstructData_getD_none (fun u hu => (hi.valid u hu).2.2.1) hnm
  · intro it hit i j k hm hk
    show (reconstructData img _).getD (encIdx img.width (i, j, k)) 0 = _
    rw [reconstructData_getD_mem hwf hi.disj hi.valid hit hm hk, computeMean_mod_256 hwf]

/-- Witness for C7 on a concrete 1×1 raster. -/
theorem c7_reconstruction_frame_witness :
    (reconstruct ⟨1, 1, [1, 2, 3, 4]⟩ (runCompress ⟨1, 1, [1, 2, 3, 4]⟩ 0)).width = 1 ∧
    (reconstruct ⟨1, 1, [1, 2, 3, 4]⟩ (runCompress ⟨1, 1, [1, 2, 3, 4]⟩ 0)).height = 1 ∧
    (reconstruct ⟨1, 1, [1, 2, 3, 4]⟩ (runCompress ⟨1, 1, [1, 2, 3, 4]⟩ 0)).data.length = 4 ∧
    (∀ p, (∀ it ∈ runCompress ⟨1, 1, [1, 2, 3, 4]⟩ 0,
        ¬ memB it.bound (decX 1 p) (decY 1 p)) →
      (reconstruct ⟨1, 1, [1, 2, 3, 4]⟩ (runCompress ⟨1, 1, [1, 2, 3, 4]⟩ 0)).data.getD p 0 = 0) ∧
    (∀ it ∈ runCompress ⟨1, 1, [1, 2, 3, 4]⟩ 0, ∀ i j k, memB it.bound j i → k < 4 →
      (reconstruct ⟨1, 1, [1, 2, 3, 4]⟩
          (runCompress ⟨1, 1, [1, 2, 3, 4]⟩ 0)).data.getD (4 * (i * 1 + j) + k) 0 =
        computeMean ⟨1, 1, [1, 2, 3, 4]⟩ it.bound k) :=
  c7_reconstruction_frame ⟨1, 1, [1, 2, 3, 4]⟩ 0 (by decide) (by decide) (by decide)

/-- C8: Non-degenerate regions.  In every reachable queue state every region
has nonzero width and height and lies within the raster; and any entry the
loop would pop (score above tolerance) has area at least 2, so a 1×1 region
(whose score is always 0) is never split and the fallback y-split branch
never runs on a 1×1 region, hence never constructs a zero-width or
zero-height child in a reachable state. -/
theorem c8_nondegenerate (img : Image) (tol : ℕ) (hwf : WF img)
    (hw : 0 < img.width) (hh : 0 < img.height) {n : ℕ} {q : List HeapItem}
    (hr : ReachN img tol n q) :
    (∀ it ∈ q, it.bound.x_min < it.bound.x_max ∧ it.bound.y_min < it.bound.y_max ∧
      it.bound.x_max ≤ img.width ∧ it.bound.y_max ≤ img.height) ∧
    (∀ it ∈ q, tol < it.var → 2 ≤ area it.bound) := by
  have hi := reach_qinv hw hh hr
  refine ⟨fun it hit => hi.valid it hit, fun it hit hhot => ?_⟩
  by_contra hlt
  push_neg at hlt
  have h0 : varScore img it.bound = 0 := varScore_of_area_le_one (by omega)
  rw [hi.scores it hit, h0] at hhot
  omega

/-- Witness for C8 at the initial queue state of a concrete raster. -/
theorem c8_nondegenerate_witness :
    (∀ it ∈ [initItem ⟨1, 1, [0, 0, 0, 0]⟩],
      it.bound.x_min < it.bound.x_max ∧ it.bound.y_min < it.bound.y_max ∧
      it.bound.x_max ≤ 1 ∧ it.bound.y_max ≤ 1) ∧
    (∀ it ∈ [initItem ⟨1, 1, [0, 0, 0, 0]⟩], 0 < it.var → 2 ≤ area it.bound) :=
  c8_nondegenerate ⟨1, 1, [0, 0, 0, 0]⟩ 0 (by decide) (by decide) (by decide) ReachN.base

/-- C9: Determinism.  The compress/reconstruct pipeline is a pure function
of the raster and the tolerance (the source has no randomness and no
environment dependence), and the one unspecified aspect — the order in which
`reconstruct`'s `for item in self.heap` consumes the final queue — cannot
influence the bytes: painting the final queue in any two orders (any two
permutations of the deterministic run's final queue, covering two separate
executions) produces byte-identical output buffers. -/
theorem c9_determinism (img : Image) (tol : ℕ) (hwf : WF img)
    (hw : 0 < img.width) (hh : 0 < img.height) {q1 q2 : List HeapItem}
    (h1 : (runCompress img tol).Perm q1) (h2 : (runCompress img tol).Perm q2) :
    (reconstruct img q1).data = (reconstruct img q2).data := by
  obtain ⟨n, hr⟩ := runCompress_reach img tol
  have hi := reach_qinv hw hh hr
  have hval1 : ∀ u ∈ q1, ValidB img u.bound := fun u hu => hi.valid u (h1.mem_iff.mpr hu)
  have hval2 : ∀ u ∈ q2, ValidB img u.bound := fun u hu => hi.valid u (h2.mem_iff.mpr hu)
  have hd1 : q1.Pairwise (fun a b => disjointB a.bound b.bound) :=
    (List.Perm.pairwise_iff (fun h => disjointB_symm h) h1).mp hi.disj
  have hd2 : q2.Pairwise (fun a b => disjointB a.bound b.bound) :=
    (List.Perm.pairwise_iff (fun h => disjointB_symm h) h2).mp hi.disj
  show reconstructData img q1 = reconstructData img q2
  have hlen : (reconstructData img q1).length = (reconstructData img q2).length := by
    rw [reconstructData_length, reconstructData_length]
  apply List.ext_getElem hlen
  intro p hp1 hp2
  rw [← List.getD_eq_getElem (reconstructData img q1) 0 hp1,
    ← List.getD_eq_getElem (reconstructData img q2) 0 hp2]
  by_cases hex : ∃ it ∈ q1, memB it.bound (decX img.width p) (decY img.width p)
  · obtain ⟨it, hit, hm⟩ := hex
    have hit2 : it ∈ q2 := h2.mem_iff.mp (h1.mem_iff.mpr hit)
    have hkp : p % 4 < 4 := Nat.mod_lt _ (by omega)
    have hpe : encIdx img.width (decY img.width p, decX img.width p, p % 4) = p :=
      encode_decode hw
    rw [← hpe, reconstructData_getD_mem hwf hd1 hval1 hit hm hkp,
      reconstructData_getD_mem hwf hd2 hval2 hit2 hm hkp]
  · push_neg at hex
    have hex2 : ∀ it ∈ q2, ¬ memB it.bound (decX img.width p) (decY img.width p) :=
      fun it hit => hex it (h1.mem_iff.mp (h2.mem_iff.mpr hit))
    rw [reconstructData_getD_none (fun u hu => (hval1 u hu).2.2.1) hex,
      reconstructData_getD_none (fun u hu => (hval2 u hu).2.2.1) hex2]

/-- Witness for C9 on a concrete raster (with the identity permutations,
i.e. two literal repeated runs). -/
theorem c9_determinism_witness :
    (reconstruct ⟨1, 1, [9, 9, 9, 9]⟩ (runCompress ⟨1, 1, [9, 9, 9, 9]⟩ 0)).data =
      (reconstruct ⟨1, 1, [9, 9, 9, 9]⟩ (runCompress ⟨1, 1, [9, 9, 9, 9]⟩ 0)).data :=
  c9_determinism ⟨1, 1, [9, 9, 9, 9]⟩ 0 (by decide) (by decide) (by decide)
    (List.Perm.refl _) (List.Perm.refl _)

/-- C10: Heap non-emptiness.  Reachable queues have length `n + 1` after `n`
split steps (one entry after construction, and each `add_detail` pops one
entry and pushes exactly two), hence are never empty, so the `unwrap`s on
`peek`/`pop` (modelled by `popMax ≠ none`) cannot fail, and the final length
is one plus the number of splits performed. -/
theorem c10_heap_nonempty (img : Image) (tol : ℕ) (hwf : WF img)
    (hw : 0 < img.width) (hh : 0 < img.height) {n : ℕ} {q : List HeapItem}
    (hr : ReachN img tol n q) :
    q.length = n + 1 ∧ q ≠ [] ∧ popMax q ≠ none ∧
    (∀ q', Step img tol q q' → q'.length = q.length + 1) := by
  have hl := reach_length hr
  have hne : q ≠ [] := by
    intro h
    rw [h] at hl
    simp at hl
  exact ⟨hl, hne, fun h => hne (popMax_eq_none.mp h), fun q' hs => step_length hs⟩

/-- Witness for C10 at the initial queue state of a concrete raster. -/
theorem c10_heap_nonempty_witness :
    [initItem ⟨1, 1, [0, 0, 0, 0]⟩].length = 0 + 1 ∧
    [initItem ⟨1, 1, [0, 0, 0, 0]⟩] ≠ [] ∧
    popMax [initItem ⟨1, 1, [0, 0, 0, 0]⟩] ≠ none ∧
    (∀ q', Step ⟨1, 1, [0, 0, 0, 0]⟩ 0 [initItem ⟨1, 1, [0, 0, 0, 0]⟩] q' →
      q'.length = [initItem ⟨1, 1, [0, 0, 0, 0]⟩].length + 1) :=
  c10_heap_nonempty ⟨1, 1, [0, 0, 0, 0]⟩ 0 (by decide) (by decide) (by decide) ReachN.base
